import Mathlib

/-!
Shallow embedding of `docs/source/conf.py`, the Sphinx configuration of the
Axion-Common repository.  Python strings are modelled as `List Char`; the
file system is modelled as a partial map from path names to the contents of
the regular file stored at that path.  Python `s.split('.')` coincides with
`List.splitOn '.'` and Python `'.'.join xs` with `List.intercalate ['.']`.
-/

/-- Characters removed by Python `str.strip()` (the whitespace characters of
the Latin-1 range; further Unicode space characters are irrelevant here). -/
def isPySpace (c : Char) : Bool :=
  c = ' ' || c = '\t' || c = '\n' || c = '\r' || c = '\x0b' || c = '\x0c' ||
  c = '\x1c' || c = '\x1d' || c = '\x1e' || c = '\x1f' || c = '\x85' || c = '\xa0'

/-- Python `s.strip()`: remove leading and trailing whitespace. -/
def pyStrip (s : List Char) : List Char :=
  ((s.dropWhile isPySpace).reverse.dropWhile isPySpace).reverse

/-- Python `s.split('.')`. -/
def splitDot (s : List Char) : List (List Char) :=
  s.splitOn '.'

/-- Python `'.'.join xs`. -/
def joinDot (xs : List (List Char)) : List Char :=
  List.intercalate ['.'] xs

/-- Line 19 of conf.py: `'.'.join(release.split('.')[:2])` as a function of
the release string. -/
def truncate2 (r : List Char) : List Char :=
  joinDot ((splitDot r).take 2)

/-- A file system: maps a path name to the contents of the regular file
stored there, when one exists. -/
def FS : Type := String → Option (List Char)

/-- Line 12 of conf.py:
`version_file = os.path.join(os.path.dirname(__file__), '../../.version')`,
with the directory of the configuration file as the base. -/
def version_file (base : String) : String :=
  base ++ "/../../.version"

/-- `os.path.exists` over the modelled file system. -/
def path_exists (fs : FS) (p : String) : Bool :=
  (fs p).isSome

/-- `open(p).read()` over the modelled file system; only reached when the
file exists. -/
def read_file (fs : FS) (p : String) : List Char :=
  (fs p).getD []

/-- Lines 13-17 of conf.py:
`release = open(version_file).read().strip()` when the file exists,
`release = '0.0.0'` otherwise. -/
def release (fs : FS) (base : String) : List Char :=
  if path_exists fs (version_file base) then
    pyStrip (read_file fs (version_file base))
  else
    "0.0.0".toList

/-- Line 19 of conf.py: `version = '.'.join(release.split('.')[:2])`. -/
def version (fs : FS) (base : String) : List Char :=
  truncate2 (release fs base)

/-- Line 7 of conf.py. -/
def project : String := "Axion-Common"

/-- Line 8 of conf.py. -/
def copyright : String := "2026, Bugra Tufan"

/-- Line 9 of conf.py. -/
def author : String := "Bugra Tufan"

/-- Lines 22-26 of conf.py. -/
def extensions : List String :=
  ["sphinx.ext.viewcode", "sphinx.ext.intersphinx", "myst_parser"]

/-- Lines 29-32 of conf.py. -/
def myst_enable_extensions : List String :=
  ["colon_fence", "deflist"]

/-- Line 35 of conf.py. -/
def html_theme : String := "sphinx_rtd_theme"

/-- Lines 38-41 of conf.py. -/
def source_suffix : List (String × String) :=
  [(".rst", "restructuredtext"), (".md", "markdown")]

/-- Line 44 of conf.py. -/
def master_doc : String := "index"

/-- Line 47 of conf.py. -/
def templates_path : List String := ["_templates"]

/-- Line 48 of conf.py. -/
def exclude_patterns : List String := []

/-- A file system holding the same regular file at every path. -/
def fsWith (c : List Char) : FS := fun _ => some c

/-- The empty file system. -/
def fsAbsent : FS := fun _ => none

/-- A file system whose only regular file sits at path p0. -/
def fsOnly (c : List Char) (p0 : String) : FS :=
  fun p => if p = p0 then some c else none

lemma joinDot_single (a : List Char) : joinDot [a] = a := by
  simp [joinDot, List.intercalate]

lemma joinDot_cons_cons (a b : List Char) (L : List (List Char)) :
    joinDot (a :: b :: L) = a ++ '.' :: joinDot (b :: L) := by
  simp [joinDot, List.intercalate, List.intersperse]

lemma splitDot_ne_nil (r : List Char) : splitDot r ≠ [] := by
  simpa [splitDot, List.splitOn] using List.splitOnP_ne_nil (· == '.') r

lemma joinDot_splitDot (r : List Char) : joinDot (splitDot r) = r :=
  List.intercalate_splitOn r '.'

lemma not_dot_of_mem_splitDot (r : List Char) :
    ∀ s ∈ splitDot r, ('.' : Char) ∉ s := by
  induction r with
  | nil =>
    intro s hs
    simp [splitDot, List.splitOn] at hs
    simp [hs]
  | cons c cs ih =>
    intro s hs
    simp only [splitDot, List.splitOn] at hs ih
    rw [List.splitOnP_cons] at hs
    by_cases hc : c = '.'
    · simp only [hc, beq_self_eq_true, if_true, List.mem_cons] at hs
      rcases hs with h | h
      · simp [h]
      · exact ih s h
    · rw [if_neg (by simpa using hc)] at hs
      rcases h' : cs.splitOnP (· == '.') with _ | ⟨t, ts⟩
      · exact absurd h' (List.splitOnP_ne_nil _ cs)
      · rw [h'] at hs
        simp only [List.modifyHead, List.mem_cons] at hs
        rcases hs with h | h
        · subst h
          intro hmem
          rcases List.mem_cons.mp hmem with h1 | h1
          · exact hc h1.symm
          · exact ih t (by rw [h']; exact List.mem_cons_self _ _) h1
        · exact ih s (by rw [h']; exact List.mem_cons_of_mem _ h)

lemma splitDot_eq_single {r : List Char} (h : ('.' : Char) ∉ r) :
    splitDot r = [r] := by
  have : ∀ x ∈ r, ¬((x == '.') = true) := by
    intro x hx hb
    exact h (by simpa using (beq_iff_eq.mp hb) ▸ hx)
  simpa [splitDot, List.splitOn] using List.splitOnP_eq_single (· == '.') r this

lemma splitDot_append_dot_cons {a : List Char} (b : List Char)
    (h : ('.' : Char) ∉ a) : splitDot (a ++ '.' :: b) = a :: splitDot b := by
  have ha : ∀ x ∈ a, ¬((x == '.') = true) := by
    intro x hx hb
    exact h (by simpa using (beq_iff_eq.mp hb) ▸ hx)
  simpa [splitDot, List.splitOn] using
    List.splitOnP_first (· == '.') a ha '.' (by simp) b

lemma splitDot_truncate2 (s : List Char) :
    splitDot (truncate2 s) = (splitDot s).take 2 := by
  rcases h : splitDot s with _ | ⟨t, ts⟩
  · exact absurd h (splitDot_ne_nil s)
  · rcases ts with _ | ⟨u, us⟩
    · have ht : ('.' : Char) ∉ t :=
        not_dot_of_mem_splitDot s t (by rw [h]; exact List.mem_cons_self _ _)
      simp [truncate2, h, joinDot_single, splitDot_eq_single ht]
    · have ht : ('.' : Char) ∉ t :=
        not_dot_of_mem_splitDot s t (by rw [h]; exact List.mem_cons_self _ _)
      have hu : ('.' : Char) ∉ u :=
        not_dot_of_mem_splitDot s u
          (by rw [h]; exact List.mem_cons_of_mem _ (List.mem_cons_self _ _))
      have : truncate2 s = t ++ '.' :: u := by
        simp [truncate2, h, joinDot_cons_cons, joinDot_single]
      rw [this, splitDot_append_dot_cons u ht, splitDot_eq_single hu]
      simp [h]

lemma splitDot_length (r : List Char) :
    (splitDot r).length = r.count '.' + 1 := by
  induction r with
  | nil => simp [splitDot, List.splitOn]
  | cons c cs ih =>
    simp only [splitDot, List.splitOn] at ih ⊢
    rw [List.splitOnP_cons]
    by_cases hc : c = '.'
    · simp [hc, ih, List.count_cons]
    · rw [if_neg (by simpa using hc)]
      simp [List.count_cons, hc, ih, Ne.symm hc]

lemma truncate2_isPre (r : List Char) : truncate2 r <+: r := by
  conv_rhs => rw [← joinDot_splitDot r]
  rcases h : splitDot r with _ | ⟨t, ts⟩
  · exact absurd h (splitDot_ne_nil r)
  · rcases ts with _ | ⟨u, us⟩
    · simp [truncate2, h]
    · have hmid : u <+: joinDot (u :: us) := by
        rcases us with _ | ⟨v, vs⟩
        · simp [joinDot_single]
        · rw [joinDot_cons_cons]
          exact List.prefix_append u _
      obtain ⟨k, hk⟩ := hmid
      rw [truncate2, h]
      refine ⟨k, ?_⟩
      simp only [List.take, joinDot_cons_cons, joinDot_single]
      rw [← hk]
      simp

/-- Claim C1: when the version file exists and its stripped contents r have
at least two dot-separated segments, the computed version equals the first
two segments of r joined by a dot. -/
theorem C1_version_first_two_segments (fs : FS) (base : String)
    (c r a b : List Char) (L : List (List Char))
    (hc : fs (version_file base) = some c)
    (hr : pyStrip c = r)
    (hsplit : splitDot r = a :: b :: L) :
    version fs base = a ++ '.' :: b := by
  have hrel : release fs base = r := by
    simp [release, path_exists, read_file, hc, hr]
  rw [version, hrel, truncate2, hsplit]
  simp [List.take, joinDot_cons_cons, joinDot_single]

/-- Witness for C1 at the file contents "1.2.3" followed by a newline. -/
theorem C1_witness :
    version (fsWith ("1.2.3\n".toList)) "docs/source" =
      "1".toList ++ '.' :: "2".toList :=
  C1_version_first_two_segments (fsWith ("1.2.3\n".toList)) "docs/source"
    ("1.2.3\n".toList) ("1.2.3".toList) ("1".toList) ("2".toList)
    ["3".toList] rfl (by decide) (by decide)

/-- Counterexample to claim C2 as stated: with the version file absent,
release is "0.0.0" but version is "0.0", not "0.0.0". -/
theorem C2_counterexample :
    fsAbsent (version_file "docs/source") = none ∧
    ¬(release fsAbsent "docs/source" = "0.0.0".toList ∧
      version fsAbsent "docs/source" = "0.0.0".toList) := by
  decide

/-- Claim C2 (amended): if the version file is absent, release equals
"0.0.0" and version equals "0.0", and no error is signalled. -/
theorem C2_absent_default (fs : FS) (base : String)
    (h : fs (version_file base) = none) :
    release fs base = "0.0.0".toList ∧ version fs base = "0.0".toList := by
  have hrel : release fs base = "0.0.0".toList := by
    simp [release, path_exists, h]
  refine ⟨hrel, ?_⟩
  rw [version, hrel]
  decide

/-- Witness for C2 on the empty file system. -/
theorem C2_witness :
    release fsAbsent "docs/source" = "0.0.0".toList ∧
    version fsAbsent "docs/source" = "0.0".toList :=
  C2_absent_default fsAbsent "docs/source" rfl

/-- Claim C3: version is a string prefix of release consisting of at most
two dot-separated segments, and when release has fewer than two segments
version equals release exactly. -/
theorem C3_version_invariant (fs : FS) (base : String) :
    version fs base <+: release fs base ∧
    (splitDot (version fs base)).length ≤ 2 ∧
    ((splitDot (release fs base)).length < 2 →
      version fs base = release fs base) := by
  refine ⟨truncate2_isPre _, ?_, ?_⟩
  · rw [version, splitDot_truncate2, List.length_take]
    exact min_le_left _ _
  · intro hlt
    rcases h : splitDot (release fs base) with _ | ⟨t, ts⟩
    · exact absurd h (splitDot_ne_nil _)
    · rcases ts with _ | ⟨u, us⟩
      · have hv : version fs base = t := by
          simp [version, truncate2, h, joinDot_single]
        rw [hv, ← joinDot_splitDot (release fs base), h, joinDot_single]
      · rw [h] at hlt
        simp only [List.length_cons] at hlt
        omega

/-- Witness for C3 on a dot-free version file containing "7". -/
theorem C3_witness :
    version (fsWith ("7".toList)) "docs/source" <+:
      release (fsWith ("7".toList)) "docs/source" ∧
    version (fsWith ("7".toList)) "docs/source" =
      release (fsWith ("7".toList)) "docs/source" :=
  ⟨(C3_version_invariant (fsWith ("7".toList)) "docs/source").1,
   (C3_version_invariant (fsWith ("7".toList)) "docs/source").2.2 (by decide)⟩

/-- Claim C4: the file contents are read and stripped into release exactly
when a regular file exists at the constructed path; otherwise the default
"0.0.0" is used. -/
theorem C4_read_iff_exists (fs : FS) (base : String) :
    (∀ c, fs (version_file base) = some c → release fs base = pyStrip c) ∧
    (fs (version_file base) = none → release fs base = "0.0.0".toList) := by
  constructor
  · intro c hc
    simp [release, path_exists, read_file, hc]
  · intro h
    simp [release, path_exists, h]

/-- Witness for C4, one file system per branch. -/
theorem C4_witness :
    release (fsWith ("1.2.3\n".toList)) "docs/source" =
      pyStrip ("1.2.3\n".toList) ∧
    release fsAbsent "docs/source" = "0.0.0".toList :=
  ⟨(C4_read_iff_exists (fsWith ("1.2.3\n".toList)) "docs/source").1 _ rfl,
   (C4_read_iff_exists fsAbsent "docs/source").2 rfl⟩

/-- Claim C5: a version file containing exactly "1.2.3" and a trailing
newline yields release "1.2.3" and version "1.2". -/
theorem C5_file_123_newline (fs : FS) (base : String)
    (h : fs (version_file base) = some ("1.2.3\n".toList)) :
    release fs base = "1.2.3".toList ∧ version fs base = "1.2".toList := by
  have hrel : release fs base = "1.2.3".toList := by
    have hr : release fs base = pyStrip ("1.2.3\n".toList) := by
      simp [release, path_exists, read_file, h]
    rw [hr]
    decide
  refine ⟨hrel, ?_⟩
  rw [version, hrel]
  decide

/-- Witness for C5. -/
theorem C5_witness :
    release (fsWith ("1.2.3\n".toList)) "docs/source" = "1.2.3".toList ∧
    version (fsWith ("1.2.3\n".toList)) "docs/source" = "1.2".toList :=
  C5_file_123_newline (fsWith ("1.2.3\n".toList)) "docs/source" rfl

/-- Claim C6: a version file containing "  2.5  \n" yields release "2.5"
with surrounding whitespace removed, and version "2.5". -/
theorem C6_file_whitespace (fs : FS) (base : String)
    (h : fs (version_file base) = some ("  2.5  \n".toList)) :
    release fs base = "2.5".toList ∧ version fs base = "2.5".toList := by
  have hrel : release fs base = "2.5".toList := by
    have hr : release fs base = pyStrip ("  2.5  \n".toList) := by
      simp [release, path_exists, read_file, h]
    rw [hr]
    decide
  refine ⟨hrel, ?_⟩
  rw [version, hrel]
  decide

/-- Witness for C6. -/
theorem C6_witness :
    release (fsWith ("  2.5  \n".toList)) "docs/source" = "2.5".toList ∧
    version (fsWith ("  2.5  \n".toList)) "docs/source" = "2.5".toList :=
  C6_file_whitespace (fsWith ("  2.5  \n".toList)) "docs/source" rfl

/-- Claim C7: an empty version file yields release "" and version "";
no validation rejects the empty input. -/
theorem C7_empty_file (fs : FS) (base : String)
    (h : fs (version_file base) = some []) :
    release fs base = [] ∧ version fs base = [] := by
  have hrel : release fs base = [] := by
    have hr : release fs base = pyStrip [] := by
      simp [release, path_exists, read_file, h]
    rw [hr]
    decide
  refine ⟨hrel, ?_⟩
  rw [version, hrel]
  decide

/-- Witness for C7. -/
theorem C7_witness :
    release (fsWith []) "docs/source" = [] ∧
    version (fsWith []) "docs/source" = [] :=
  C7_empty_file (fsWith []) "docs/source" rfl

/-- Claim C8: independent of the version file, the configuration sets the
three listed extensions in order, the sphinx_rtd_theme theme, and the
two-entry suffix-to-parser mapping. -/
theorem C8_static_config :
    extensions =
      ["sphinx.ext.viewcode", "sphinx.ext.intersphinx", "myst_parser"] ∧
    extensions.length = 3 ∧
    html_theme = "sphinx_rtd_theme" ∧
    source_suffix = [(".rst", "restructuredtext"), (".md", "markdown")] :=
  ⟨rfl, rfl, rfl, rfl⟩

/-- Claim C9: the version truncation is idempotent, and its output always
has at most two dot-separated segments, hence at most one dot. -/
theorem C9_truncate2_idempotent (s : List Char) :
    truncate2 (truncate2 s) = truncate2 s ∧
    (splitDot (truncate2 s)).length ≤ 2 ∧
    (truncate2 s).count '.' ≤ 1 := by
  have hlen : (splitDot (truncate2 s)).length ≤ 2 := by
    rw [splitDot_truncate2, List.length_take]
    exact min_le_left _ _
  refine ⟨?_, hlen, ?_⟩
  · conv_lhs => rw [truncate2, splitDot_truncate2]
    rw [List.take_take]
    rfl
  · have hcount := splitDot_length (truncate2 s)
    omega

/-- Claim C10: release and version depend only on the entry of the file
system at the constructed path; in particular, for a fixed file-system
state the outputs are uniquely determined. -/
theorem C10_depends_only_on_version_file (fs1 fs2 : FS) (base : String)
    (h : fs1 (version_file base) = fs2 (version_file base)) :
    release fs1 base = release fs2 base ∧
    version fs1 base = version fs2 base := by
  have hrel : release fs1 base = release fs2 base := by
    simp only [release, path_exists, read_file, h]
  exact ⟨hrel, by rw [version, version, hrel]⟩

/-- Witness for C10: two file systems that differ everywhere except at the
version-file path give the same release and version. -/
theorem C10_witness :
    release (fsOnly ("9.9.9".toList) (version_file "docs/source"))
        "docs/source" =
      release (fsWith ("9.9.9".toList)) "docs/source" ∧
    version (fsOnly ("9.9.9".toList) (version_file "docs/source"))
        "docs/source" =
      version (fsWith ("9.9.9".toList)) "docs/source" :=
  C10_depends_only_on_version_file
    (fsOnly ("9.9.9".toList) (version_file "docs/source"))
    (fsWith ("9.9.9".toList)) "docs/source" (by decide)
